import Mathlib

/-!
Shallow embedding of `uclasm/utils/data_structures.py` (classes `_Graph` and
`_GraphWithCandidates`) and proofs about the properties its specification
states.  Matrices are modelled as a shape plus a total entry function; Python
exceptions are modelled with `Except`; the dynamic result of Python `sum`
over the dict of adjacency matrices is modelled with the sum type `AdjSum`.
The `index_map` helper is imported by the source from `uclasm.utils.misc`,
which is not among the shown files, so it is modelled from the spec.
-/

/-- Python exception kinds the embedded code can raise. -/
inductive PyErr where
  | duplicateIdentifier
  | attributeError
  | nameError
  | indexError
  | keyError
deriving DecidableEq

/-- A numeric matrix as numpy/scipy hold it: an explicit shape together with
an entry function; only entries with `i < rows` and `j < cols` are meaningful. -/
structure Mat where
  rows : Nat
  cols : Nat
  entry : Nat → Nat → Int

/-- Element-wise matrix addition (shapes agree in every use the source makes). -/
def Mat.add (a b : Mat) : Mat :=
  { rows := a.rows, cols := a.cols, entry := fun i j => a.entry i j + b.entry i j }

/-- Matrix transposition, `adj.T` in the source. -/
def Mat.transp (a : Mat) : Mat :=
  { rows := a.cols, cols := a.rows, entry := fun i j => a.entry j i }

/-- A boolean matrix, as produced by comparing a numeric matrix with a scalar. -/
structure Matb where
  rows : Nat
  cols : Nat
  entry : Nat → Nat → Bool

/-- Entry-wise `> 0` comparison, the `self.sym_composite_adj > 0` of line 46. -/
def Mat.gtZero (a : Mat) : Matb :=
  { rows := a.rows, cols := a.cols, entry := fun i j => decide (0 < a.entry i j) }

/-- Insertion into a Python dict rendered as an association list: an existing
key keeps its position and gets the new value, a new key is appended. -/
def dictInsert (d : List (Nat × Mat)) (ch : Nat) (m : Mat) : List (Nat × Mat) :=
  if d.any (fun p => p.1 == ch) then
    d.map (fun p => if p.1 == ch then (p.1, m) else p)
  else d ++ [(ch, m)]

/-- The dict comprehension of line 20, `{ch: adj for ch, adj in zip(channels,
adjs)}`: `zip` truncates to the shorter input and duplicate channel names
collapse with dict semantics. -/
def dictOfPairs (ps : List (Nat × Mat)) : List (Nat × Mat) :=
  ps.foldl (fun d p => dictInsert d p.1 p.2) []

/-- Position of the first occurrence of `x`, the lookup underlying the index
mapping dictionaries. -/
def idxOf (x : Nat) : List Nat → Option Nat
  | [] => none
  | y :: ys => if y = x then some 0 else (idxOf x ys).map (· + 1)

/-- Modelled from the spec: `index_map` comes from `uclasm.utils.misc`, a file
not among the shown sources.  Per spec section 6 it returns the total injective
identifier-to-position mapping of an ordered sequence and must reject duplicate
identifiers. -/
def index_map (xs : List Nat) : Except PyErr (Nat → Option Nat) :=
  if xs.Nodup then .ok (fun x => idxOf x xs) else .error .duplicateIdentifier

/-- State stored by `_Graph.__init__` (lines 18-27): the channel-to-adjacency
dict and the node identifier array.  `n_nodes` and `node_idxs` are recomputed
by accessors below since they are functions of `nodes`. -/
structure Graph where
  ch_to_adj : List (Nat × Mat)
  nodes : List Nat

/-- Constructor `_Graph.__init__` (lines 19-27).  Line 20 builds the dict from
`zip(channels, adjs)` without any count or shape validation; line 23 calls
`index_map`, the only step that can fail (on duplicate identifiers). -/
def Graph.init (nodes channels : List Nat) (adjs : List Mat) : Except PyErr Graph :=
  match index_map nodes with
  | .error e => .error e
  | .ok _ => .ok { ch_to_adj := dictOfPairs (channels.zip adjs), nodes := nodes }

/-- Accessor for `self.n_nodes` (line 22). -/
def Graph.n_nodes (g : Graph) : Nat := g.nodes.length

/-- Accessor for `self.node_idxs` (line 23), total over identifiers. -/
def Graph.node_idxs (g : Graph) (x : Nat) : Option Nat := idxOf x g.nodes

/-- Property `channels` (lines 50-52), the dict keys in insertion order. -/
def Graph.channels (g : Graph) : List Nat := g.ch_to_adj.map Prod.fst

/-- Property `adjs` (lines 54-56), the dict values in insertion order. -/
def Graph.adjs (g : Graph) : List Mat := g.ch_to_adj.map Prod.snd

/-- Result of Python builtin `sum` applied to the adjacency matrices: the
plain int `0` when there are none, otherwise a matrix, since scipy accepts
`0 + matrix` as the matrix itself. -/
inductive AdjSum where
  | intZero
  | mat (m : Mat)

/-- Python `sum(self.ch_to_adj.values())` of line 32. -/
def pySum : List Mat → AdjSum
  | [] => .intZero
  | m :: ms => .mat (ms.foldl Mat.add m)

/-- Property `composite_adj` (lines 29-34); memoization is semantically
transparent because nothing mutates the dict after construction. -/
def Graph.composite_adj (g : Graph) : AdjSum := pySum g.adjs

/-- Property `sym_composite_adj` (lines 36-41), `composite_adj +
composite_adj.T`.  When `composite_adj` is the int `0`, the attribute access
`.T` raises AttributeError. -/
def Graph.sym_composite_adj (g : Graph) : Except PyErr Mat :=
  match g.composite_adj with
  | .intZero => .error .attributeError
  | .mat m => .ok (m.add m.transp)

/-- Property `is_nbr` (lines 43-48), `sym_composite_adj > 0`. -/
def Graph.is_nbr (g : Graph) : Except PyErr Matb :=
  g.sym_composite_adj.map Mat.gtZero

/-- Index pairs kept by `sparse.tril` (diagonal included, `j ≤ i`) listed in
row-major order, as `np.argwhere` reports the nonzero positions. -/
def trilPairs (b : Matb) : List (Nat × Nat) :=
  (List.range b.rows).flatMap (fun i =>
    (List.range b.cols).filterMap (fun j =>
      if j ≤ i ∧ b.entry i j then some (i, j) else none))

/-- Property `nbr_idx_pairs` (lines 58-65), `np.argwhere(sparse.tril(self.is_nbr))`. -/
def Graph.nbr_idx_pairs (g : Graph) : Except PyErr (List (Nat × Nat)) :=
  g.is_nbr.map trilPairs

/-- Number of true entries of the lower-triangular half, diagonal included
(`j ≤ i`), the part `sparse.tril` keeps. -/
def Matb.trilCount (b : Matb) : Nat :=
  ((List.range b.rows).map (fun i =>
    (List.range b.cols).countP (fun j => decide (j ≤ i ∧ b.entry i j)))).sum

/-- Number of true entries of the strictly-lower-triangular half (`j < i`). -/
def Matb.strictTrilCount (b : Matb) : Nat :=
  ((List.range b.rows).map (fun i =>
    (List.range b.cols).countP (fun j => decide (j < i ∧ b.entry i j)))).sum

/-- Method `subgraph` (lines 67-77).  Lines 73-74 slice `self.nodes` and the
adjacency matrices, raising IndexError when an index is outside the node
range; when the slicing succeeds, the return statement of line 77 reads the
undefined name `subgraph_nodes` (the computed slice is named `nodes`), so the
call raises NameError instead of returning the induced subgraph. -/
def Graph.subgraph (g : Graph) (node_idxs : List Nat) : Except PyErr Graph :=
  if node_idxs.all (fun i => i < g.n_nodes) then .error .nameError
  else .error .indexError

/-- Heap of matrix objects: a Python-level reference is a cell number. -/
def Heap : Type := Nat → Mat

/-- In-place mutation of the matrix object behind reference `r`. -/
def writeHeap (h : Heap) (r : Nat) (m : Mat) : Heap :=
  fun s => if s = r then m else h s

/-- View of a `_Graph` whose per-channel adjacency matrices live behind heap
references, used to reason about the aliasing behaviour of `copy`. -/
structure HGraph where
  nodes : List Nat
  chs : List Nat
  adjRefs : List Nat

/-- All matrix references of the graph lie below the allocation counter. -/
def HGraph.WF (g : HGraph) (ctr : Nat) : Prop := ∀ r ∈ g.adjRefs, r < ctr

/-- Method `copy` (lines 79-84): rebuilds the object from the same `nodes`
and `channels` and `[adj.copy() for adj in self.adjs]`.  Each `adj.copy()`
allocates a fresh cell (numbered from the allocation counter `ctr` up)
holding the same matrix value; all other cells keep their contents. -/
def HGraph.copy (g : HGraph) (h : Heap) (ctr : Nat) : HGraph × Heap :=
  ({ nodes := g.nodes, chs := g.chs,
     adjRefs := (List.range g.adjRefs.length).map (fun k => ctr + k) },
   fun r => if ctr ≤ r ∧ r - ctr < g.adjRefs.length
            then h (g.adjRefs.getD (r - ctr) 0) else h r)

/-- State stored by `_GraphWithCandidates.__init__` (lines 90-103) on top of
the embedded `_Graph` state: the candidate identifiers and the `is_cand`
matrix. -/
structure GraphC where
  graph : Graph
  cands : List Nat
  is_cand : Matb

/-- Constructor `_GraphWithCandidates.__init__` (lines 90-103): runs the
`_Graph` constructor, builds the candidate index map (failing on duplicate
candidates), and stores a supplied `is_cand` matrix as given, with no shape
check; when none is supplied it stores the all-ones matrix of shape
`(len(nodes), len(candidates))` of line 99. -/
def GraphC.init (candidates nodes channels : List Nat) (adjs : List Mat)
    (is_cand : Option Matb) : Except PyErr GraphC :=
  match Graph.init nodes channels adjs with
  | .error e => .error e
  | .ok g =>
    match index_map candidates with
    | .error e => .error e
    | .ok _ =>
      .ok { graph := g, cands := candidates,
            is_cand := is_cand.getD
              { rows := nodes.length, cols := candidates.length,
                entry := fun _ _ => true } }

/-- Accessor for `self.cand_idxs` (line 96), total over identifiers. -/
def GraphC.cand_idxs (t : GraphC) (x : Nat) : Option Nat := idxOf x t.cands

/-- Selection of the elements of `xs` whose position satisfies the boolean
mask `p`, starting at position `i`: numpy boolean-mask indexing `xs[p]`. -/
def maskSel (p : Nat → Bool) (i : Nat) : List Nat → List Nat
  | [] => []
  | x :: xs => if p i then x :: maskSel p (i + 1) xs else maskSel p (i + 1) xs

/-- Method `get_cands` (lines 105-110), `self.cands[self.is_cand[node_idx]]`.
The dict lookup raises KeyError for an unknown node; numpy raises IndexError
when the row index exceeds the row count or the mask length is not the length
of `cands`. -/
def GraphC.get_cands (t : GraphC) (node : Nat) : Except PyErr (List Nat) :=
  match t.graph.node_idxs node with
  | none => .error .keyError
  | some i =>
    if i < t.is_cand.rows ∧ t.is_cand.cols = t.cands.length then
      .ok (maskSel (fun j => t.is_cand.entry i j) 0 t.cands)
    else .error .indexError

/-- Number of true entries of row `i`, one component of `sum(axis=1)`. -/
def Matb.rowCount (b : Matb) (i : Nat) : Nat :=
  (List.range b.cols).countP (fun j => b.entry i j)

/-- Method `get_cand_counts` (lines 113-117), `self.is_cand.sum(axis=1)`. -/
def GraphC.get_cand_counts (t : GraphC) : List Nat :=
  (List.range t.is_cand.rows).map (fun i => t.is_cand.rowCount i)

/-- Sort key of `summarize` (lines 132-134): candidate count and node index,
both negated so that the ascending sort of line 137 is descending on each. -/
def GraphC.summarize_key (t : GraphC) (node : Nat) : Int × Int :=
  (-(t.is_cand.rowCount ((t.graph.node_idxs node).getD 0) : Int),
   -(((t.graph.node_idxs node).getD 0 : Nat) : Int))

/-- Comparison of Python tuples of two ints, as used by `sorted` on the keys. -/
def keyLe (a b : Int × Int) : Bool :=
  if a.1 = b.1 then decide (a.2 ≤ b.2) else decide (a.1 < b.1)

/-- Insertion of `x` into `l` in front of the first element not below it. -/
def insertLe {α : Type} (le : α → α → Bool) (x : α) : List α → List α
  | [] => [x]
  | y :: ys => if le x y then x :: y :: ys else y :: insertLe le x ys

/-- Insertion sort; stable and ascending under `le`, like Python `sorted`. -/
def sortLe {α : Type} (le : α → α → Bool) : List α → List α
  | [] => []
  | x :: xs => insertLe le x (sortLe le xs)

/-- Visiting order of the per-node listing of `summarize` (line 137),
`sorted(self.nodes, key=key_func)`. -/
def GraphC.summarize_order (t : GraphC) : List Nat :=
  sortLe (fun a b => keyLe (t.summarize_key a) (t.summarize_key b)) t.graph.nodes

/-! Helper lemmas about `idxOf`. -/

theorem idxOf_lt_length {x : Nat} : ∀ {xs : List Nat} {i : Nat},
    idxOf x xs = some i → i < xs.length := by
  intro xs
  induction xs with
  | nil => intro i h; simp [idxOf] at h
  | cons y ys ih =>
    intro i h
    unfold idxOf at h
    by_cases hyx : y = x
    · rw [if_pos hyx] at h
      injection h with h
      subst h
      simp
    · rw [if_neg hyx] at h
      cases hidx : idxOf x ys with
      | none => rw [hidx] at h; simp [Option.map] at h
      | some a =>
        rw [hidx] at h
        simp [Option.map] at h
        have := ih hidx
        simp
        omega

theorem idxOf_getD {x : Nat} : ∀ {xs : List Nat} {i : Nat},
    idxOf x xs = some i → xs.getD i 0 = x := by
  intro xs
  induction xs with
  | nil => intro i h; simp [idxOf] at h
  | cons y ys ih =>
    intro i h
    unfold idxOf at h
    by_cases hyx : y = x
    · rw [if_pos hyx] at h
      injection h with h
      subst h
      simpa using hyx
    · rw [if_neg hyx] at h
      cases hidx : idxOf x ys with
      | none => rw [hidx] at h; simp [Option.map] at h
      | some a =>
        rw [hidx] at h
        simp [Option.map] at h
        subst h
        simpa using ih hidx

theorem idxOf_of_getD {x : Nat} : ∀ {xs : List Nat} {i : Nat},
    xs.Nodup → i < xs.length → xs.getD i 0 = x → idxOf x xs = some i := by
  intro xs
  induction xs with
  | nil => intro i _ h; simp at h
  | cons y ys ih =>
    intro i hnd hi hget
    rcases List.nodup_cons.mp hnd with ⟨hy, hnd2⟩
    cases i with
    | zero =>
      rw [List.getD_cons_zero] at hget
      simp [idxOf, hget]
    | succ k =>
      rw [List.getD_cons_succ] at hget
      have hk : k < ys.length := by simpa using hi
      have hmem : x ∈ ys := by
        have h1 : ys.getD k 0 ∈ ys := by
          rw [List.getD_eq_getElem?_getD, List.getElem?_eq_getElem hk]
          exact List.getElem_mem hk
        rwa [hget] at h1
      have hyx : y ≠ x := fun he => hy (he ▸ hmem)
      rw [idxOf, if_neg hyx, ih hnd2 hk hget]
      rfl

theorem idxOf_of_mem {x : Nat} : ∀ {xs : List Nat},
    x ∈ xs → ∃ i, idxOf x xs = some i := by
  intro xs
  induction xs with
  | nil => intro h; simp at h
  | cons y ys ih =>
    intro h
    by_cases hyx : y = x
    · exact ⟨0, by simp [idxOf, hyx]⟩
    · have hx : x ∈ ys := by
        rcases List.mem_cons.mp h with h1 | h1
        · exact absurd h1.symm hyx
        · exact h1
      obtain ⟨i, hi⟩ := ih hx
      exact ⟨i + 1, by simp [idxOf, hyx, hi, Option.map]⟩

/-! Helper lemmas about `maskSel`, `trilPairs` and the matrix fold. -/

theorem maskSel_length (p : Nat → Bool) : ∀ (xs : List Nat) (i : Nat),
    (maskSel p i xs).length = (List.range xs.length).countP (fun k => p (i + k)) := by
  intro xs
  induction xs with
  | nil => intro i; simp [maskSel]
  | cons x xs ih =>
    intro i
    rw [maskSel]
    have hr : (List.range (xs.length + 1)).countP (fun k => p (i + k)) =
        (if p i then 1 else 0) + (List.range xs.length).countP (fun k => p (i + 1 + k)) := by
      rw [List.range_succ_eq_map, List.countP_cons, List.countP_map]
      have : ((fun k => p (i + k)) ∘ Nat.succ) = (fun k => p (i + 1 + k)) := by
        funext k
        have : i + (k + 1) = i + 1 + k := by omega
        simp [Function.comp, Nat.succ_eq_add_one, this]
      rw [this]
      by_cases hp : p i
      · simp [hp]
        omega
      · simp [hp]
    by_cases hp : p i
    · rw [if_pos hp]
      simp only [List.length_cons, hr, ih (i + 1), if_pos hp]
      omega
    · rw [if_neg hp]
      simp only [List.length_cons, hr, ih (i + 1), if_neg hp]
      omega

theorem maskSel_mem (p : Nat → Bool) : ∀ (xs : List Nat) (i c : Nat),
    c ∈ maskSel p i xs → ∃ k, k < xs.length ∧ p (i + k) = true ∧ xs.getD k 0 = c := by
  intro xs
  induction xs with
  | nil => intro i c h; simp [maskSel] at h
  | cons x xs ih =>
    intro i c h
    rw [maskSel] at h
    by_cases hp : p i
    · rw [if_pos hp] at h
      rcases List.mem_cons.mp h with h1 | h1
      · exact ⟨0, by simp, by simpa [h1] using hp, by simp [h1]⟩
      · obtain ⟨k, hk, hpk, hg⟩ := ih (i + 1) c h1
        exact ⟨k + 1, by simpa using hk, by simpa [Nat.add_assoc, Nat.add_comm 1 k] using hpk,
               by simpa using hg⟩
    · rw [if_neg hp] at h
      obtain ⟨k, hk, hpk, hg⟩ := ih (i + 1) c h
      exact ⟨k + 1, by simpa using hk, by simpa [Nat.add_assoc, Nat.add_comm 1 k] using hpk,
             by simpa using hg⟩

theorem length_filterMap_ite {β : Type} (P : Nat → Prop) [DecidablePred P]
    (f : Nat → β) : ∀ (l : List Nat),
    (l.filterMap (fun j => if P j then some (f j) else none)).length =
      l.countP (fun j => decide (P j)) := by
  intro l
  induction l with
  | nil => simp
  | cons a l ih =>
    rw [List.filterMap_cons, List.countP_cons]
    by_cases hp : P a
    · simp only [if_pos hp]
      simp [ih, hp]
    · simp only [if_neg hp]
      simp [ih, hp]

theorem mem_trilPairs {b : Matb} {i j : Nat} :
    (i, j) ∈ trilPairs b ↔ i < b.rows ∧ j < b.cols ∧ j ≤ i ∧ b.entry i j = true := by
  unfold trilPairs
  simp only [List.mem_flatMap, List.mem_filterMap, List.mem_range]
  constructor
  · rintro ⟨a, ha, k, hk, hsome⟩
    by_cases hc : k ≤ a ∧ b.entry a k
    · rw [if_pos hc] at hsome
      injection hsome with hsome
      have h1 : a = i := congrArg Prod.fst hsome
      have h2 : k = j := congrArg Prod.snd hsome
      subst h1
      subst h2
      exact ⟨ha, hk, hc.1, hc.2⟩
    · rw [if_neg hc] at hsome
      cases hsome
  · rintro ⟨hi, hj, hle, he⟩
    exact ⟨i, hi, j, hj, by rw [if_pos ⟨hle, he⟩]⟩

theorem trilPairs_length (b : Matb) : (trilPairs b).length = b.trilCount := by
  unfold trilPairs Matb.trilCount
  rw [List.length_flatMap]
  congr 1
  apply List.map_congr_left
  intro i _
  exact length_filterMap_ite (fun j => j ≤ i ∧ b.entry i j) (fun j => (i, j)) _

theorem foldl_add_entry : ∀ (ms : List Mat) (m : Mat) (i j : Nat),
    (ms.foldl Mat.add m).entry i j = m.entry i j + (ms.map (fun a => a.entry i j)).sum := by
  intro ms
  induction ms with
  | nil => intro m i j; simp
  | cons a ms ih =>
    intro m i j
    rw [List.foldl_cons, ih]
    simp [Mat.add]
    ring

theorem foldl_add_shape : ∀ (ms : List Mat) (m : Mat),
    (ms.foldl Mat.add m).rows = m.rows ∧ (ms.foldl Mat.add m).cols = m.cols := by
  intro ms
  induction ms with
  | nil => intro m; exact ⟨rfl, rfl⟩
  | cons a ms ih =>
    intro m
    rw [List.foldl_cons]
    exact ih (m.add a)

/-! Helper lemmas about insertion sort and the tuple comparison. -/

theorem insertLe_perm {α : Type} (le : α → α → Bool) (x : α) :
    ∀ (l : List α), (insertLe le x l).Perm (x :: l) := by
  intro l
  induction l with
  | nil => simp [insertLe]
  | cons y ys ih =>
    rw [insertLe]
    by_cases hle : le x y
    · rw [if_pos hle]
    · rw [if_neg hle]
      exact (ih.cons y).trans (List.Perm.swap x y ys)

theorem sortLe_perm {α : Type} (le : α → α → Bool) :
    ∀ (l : List α), (sortLe le l).Perm l := by
  intro l
  induction l with
  | nil => simp [sortLe]
  | cons x xs ih =>
    rw [sortLe]
    exact (insertLe_perm le x (sortLe le xs)).trans (ih.cons x)

theorem mem_insertLe {α : Type} {le : α → α → Bool} {x z : α} {l : List α} :
    z ∈ insertLe le x l → z = x ∨ z ∈ l := by
  intro h
  have := (insertLe_perm le x l).mem_iff.mp h
  simpa using this

theorem insertLe_pairwise {α : Type} {le : α → α → Bool}
    (htrans : ∀ a b c, le a b = true → le b c = true → le a c = true)
    (htot : ∀ a b, le a b = true ∨ le b a = true) (x : α) :
    ∀ {l : List α}, l.Pairwise (fun a b => le a b = true) →
      (insertLe le x l).Pairwise (fun a b => le a b = true) := by
  intro l
  induction l with
  | nil => intro _; simp [insertLe]
  | cons y ys ih =>
    intro hp
    rcases List.pairwise_cons.mp hp with ⟨hy, hys⟩
    rw [insertLe]
    by_cases hle : le x y
    · rw [if_pos hle]
      refine List.pairwise_cons.mpr ⟨?_, hp⟩
      intro z hz
      rcases List.mem_cons.mp hz with h1 | h1
      · exact h1 ▸ hle
      · exact htrans x y z hle (hy z h1)
    · rw [if_neg hle]
      refine List.pairwise_cons.mpr ⟨?_, ih hys⟩
      intro z hz
      rcases mem_insertLe hz with h1 | h1
      · subst h1
        rcases htot y z with h2 | h2
        · exact h2
        · exact absurd h2 (by simpa using hle)
      · exact hy z h1

theorem sortLe_pairwise {α : Type} {le : α → α → Bool}
    (htrans : ∀ a b c, le a b = true → le b c = true → le a c = true)
    (htot : ∀ a b, le a b = true ∨ le b a = true) :
    ∀ (l : List α), (sortLe le l).Pairwise (fun a b => le a b = true) := by
  intro l
  induction l with
  | nil => simp [sortLe]
  | cons x xs ih =>
    rw [sortLe]
    exact insertLe_pairwise htrans htot x ih

theorem keyLe_iff (a b : Int × Int) :
    keyLe a b = true ↔ (a.1 < b.1 ∨ (a.1 = b.1 ∧ a.2 ≤ b.2)) := by
  unfold keyLe
  by_cases h : a.1 = b.1 <;> simp [h]

theorem keyLe_trans (a b c : Int × Int) :
    keyLe a b = true → keyLe b c = true → keyLe a c = true := by
  rw [keyLe_iff, keyLe_iff, keyLe_iff]
  omega

theorem keyLe_total (a b : Int × Int) : keyLe a b = true ∨ keyLe b a = true := by
  rw [keyLe_iff, keyLe_iff]
  omega

/-! Concrete instances used by witnesses and counterexamples. -/

/-- Two-node example matrix with one directed edge from position 0 to 1. -/
def matEdge : Mat :=
  { rows := 2, cols := 2, entry := fun i j => if i = 0 ∧ j = 1 then 1 else 0 }

/-- Two-node, one-channel example graph. -/
def gEdge : Graph := { ch_to_adj := [(0, matEdge)], nodes := [10, 11] }

/-- The neighbor matrix the example graph derives. -/
def bEdge : Matb := (matEdge.add matEdge.transp).gtZero

/-- C5: for every GraphCore, the derived `is_nbr` matrix is symmetric,
`is_nbr[i][j] = is_nbr[j][i]` for every pair of node positions, regardless of
the directedness of the per-channel adjacency matrices. -/
theorem is_nbr_symmetric (g : Graph) (b : Matb) (h : g.is_nbr = .ok b) :
    ∀ i j, b.entry i j = b.entry j i := by
  unfold Graph.is_nbr Graph.sym_composite_adj at h
  cases hc : g.composite_adj with
  | intZero =>
    rw [hc] at h
    simp [Except.map] at h
  | mat m =>
    rw [hc] at h
    simp [Except.map] at h
    subst h
    intro i j
    simp only [Mat.gtZero, Mat.add, Mat.transp]
    exact decide_eq_decide.mpr (by omega)

/-- Witness for C5 at the concrete two-node graph. -/
theorem is_nbr_symmetric_witness :
    gEdge.is_nbr = .ok bEdge ∧ (∀ i j, bEdge.entry i j = bEdge.entry j i) :=
  ⟨rfl, is_nbr_symmetric gEdge bEdge rfl⟩

/-- First example channel matrix for C6. -/
def matA : Mat :=
  { rows := 2, cols := 2, entry := fun i j => if i = 0 ∧ j = 1 then 2 else 0 }

/-- Second example channel matrix for C6. -/
def matB : Mat :=
  { rows := 2, cols := 2, entry := fun i j => if i = 1 ∧ j = 0 then 3 else 0 }

/-- Two-channel example graph for C6. -/
def gAB : Graph := { ch_to_adj := [(0, matA), (1, matB)], nodes := [20, 21] }

/-- C6: for every GraphCore with at least one channel, `composite_adj` is the
entrywise sum of the stored per-channel adjacency matrices, with the shape of
the first one; with channels `{A, B}` it is exactly `M_A + M_B` entrywise
(with no channel the sum is the int `0`, see the C10 theorem). -/
theorem composite_adj_eq_entrywise_sum (g : Graph) (m : Mat) (ms : List Mat)
    (h : g.adjs = m :: ms) :
    ∃ M, g.composite_adj = .mat M ∧ M.rows = m.rows ∧ M.cols = m.cols ∧
      ∀ i j, M.entry i j = ((m :: ms).map (fun a => a.entry i j)).sum := by
  refine ⟨ms.foldl Mat.add m, ?_, (foldl_add_shape ms m).1, (foldl_add_shape ms m).2, ?_⟩
  · unfold Graph.composite_adj
    rw [h]
    rfl
  · intro i j
    rw [foldl_add_entry]
    simp

/-- Witness for C6 at the concrete two-channel graph: `composite_adj` is
entrywise `matA + matB`. -/
theorem composite_adj_eq_entrywise_sum_witness :
    gAB.adjs = [matA, matB] ∧
    ∃ M, gAB.composite_adj = .mat M ∧ M.rows = matA.rows ∧ M.cols = matA.cols ∧
      ∀ i j, M.entry i j = (([matA, matB]).map (fun a => a.entry i j)).sum :=
  ⟨rfl, composite_adj_eq_entrywise_sum gAB matA [matB] rfl⟩

/-! Constructor lemmas shared by several claims. -/

theorem Graph.init_ok {nodes channels : List Nat} {adjs : List Mat} {g : Graph}
    (h : Graph.init nodes channels adjs = .ok g) :
    g.ch_to_adj = dictOfPairs (channels.zip adjs) ∧ g.nodes = nodes := by
  unfold Graph.init at h
  cases him : index_map nodes with
  | error e => rw [him] at h; exact Except.noConfusion h
  | ok f =>
    rw [him] at h
    injection h with h
    subst h
    exact ⟨rfl, rfl⟩

theorem Graph.init_eq_ok {nodes : List Nat} (channels : List Nat) (adjs : List Mat)
    (h : nodes.Nodup) :
    Graph.init nodes channels adjs =
      .ok { ch_to_adj := dictOfPairs (channels.zip adjs), nodes := nodes } := by
  unfold Graph.init index_map
  rw [if_pos h]

theorem GraphC.init_builds {candidates nodes : List Nat} (channels : List Nat)
    (adjs : List Mat) (mb : Option Matb) (hn : nodes.Nodup) (hc : candidates.Nodup) :
    GraphC.init candidates nodes channels adjs mb =
      .ok { graph := { ch_to_adj := dictOfPairs (channels.zip adjs), nodes := nodes },
            cands := candidates,
            is_cand := mb.getD { rows := nodes.length, cols := candidates.length,
                                 entry := fun _ _ => true } } := by
  unfold GraphC.init
  rw [Graph.init_eq_ok channels adjs hn]
  unfold index_map
  rw [if_pos hc]

/-- C1: the spec says `induce_subgraph(node_indices)` returns a new GraphCore
restricted to the selected positions; the code instead raises NameError on
every call with in-range indices, because line 77 returns
`self.__class__(subgraph_nodes, ...)` and the name `subgraph_nodes` is never
defined (the computed slice of line 73 is named `nodes`). -/
theorem subgraph_raises_name_error (g : Graph) (idxs : List Nat)
    (h : ∀ i ∈ idxs, i < g.n_nodes) :
    g.subgraph idxs = .error .nameError := by
  have hall : idxs.all (fun i => decide (i < g.n_nodes)) = true := by
    rw [List.all_eq_true]
    intro i hi
    exact decide_eq_true (h i hi)
  simp [Graph.subgraph, hall]

/-- Witness for C1: the two-node example graph with the valid index list `[0]`
raises NameError. -/
theorem subgraph_raises_name_error_witness :
    (∀ i ∈ [0], i < gEdge.n_nodes) ∧ gEdge.subgraph [0] = .error .nameError :=
  ⟨by decide, subgraph_raises_name_error gEdge [0] (by decide)⟩

/-- The graph built over one node with an empty channel set. -/
def gEmptyCh : Graph := { ch_to_adj := [], nodes := [0] }

/-- C10 (amended): with zero channels, `composite_adj` is the plain int `0`
rather than a matrix, and `sym_composite_adj` and `is_nbr` do not evaluate to
scalar zero and scalar false: the transposition `composite_adj.T` raises
AttributeError because the int `0` has no such attribute, and `is_nbr`
propagates that failure. -/
theorem empty_channels_scalar (nodes : List Nat) (g : Graph)
    (h : Graph.init nodes [] [] = .ok g) :
    g.composite_adj = .intZero ∧
    g.sym_composite_adj = .error .attributeError ∧
    g.is_nbr = .error .attributeError := by
  obtain ⟨hch, -⟩ := Graph.init_ok h
  have hadj : g.adjs = [] := by rw [Graph.adjs, hch]; rfl
  have h1 : g.composite_adj = .intZero := by rw [Graph.composite_adj, hadj]; rfl
  refine ⟨h1, ?_, ?_⟩
  · simp [Graph.sym_composite_adj, h1]
  · simp [Graph.is_nbr, Graph.sym_composite_adj, h1, Except.map]

/-- Witness for C10 at a one-node graph with no channels. -/
theorem empty_channels_scalar_witness :
    Graph.init [0] [] [] = .ok gEmptyCh ∧
    (gEmptyCh.composite_adj = .intZero ∧
     gEmptyCh.sym_composite_adj = .error .attributeError ∧
     gEmptyCh.is_nbr = .error .attributeError) :=
  ⟨rfl, empty_channels_scalar [0] gEmptyCh rfl⟩

/-- Counterexample for C10 as stated: at one node and zero channels,
`sym_composite_adj` is an AttributeError, not the scalar zero the claim
asserts, and `is_nbr` is the same error, not a scalar false. -/
theorem empty_channels_counterexample :
    Graph.init [0] [] [] = .ok gEmptyCh ∧
    gEmptyCh.sym_composite_adj = .error .attributeError ∧
    gEmptyCh.is_nbr = .error .attributeError :=
  ⟨rfl, rfl, rfl⟩

/-- A 4-by-4 all-ones matrix, whose shape disagrees with a 3-node graph. -/
def mat4 : Mat := { rows := 4, cols := 4, entry := fun _ _ => 1 }

/-- Counterexample for C2 as stated: constructing with 3 nodes and a 4-by-4
adjacency matrix does not fail; it returns a fully-built instance storing the
mismatched matrix unchanged. -/
theorem init_shape_mismatch_counterexample :
    Graph.init [0, 1, 2] [7] [mat4] =
      .ok { ch_to_adj := [(7, mat4)], nodes := [0, 1, 2] } ∧
    mat4.rows ≠ ([0, 1, 2] : List Nat).length :=
  ⟨rfl, by decide⟩

/-- C2 (amended): GraphCore construction performs no count or shape
validation: a channel/matrix count mismatch is silently truncated by `zip` and
a matrix of any shape is accepted and stored unchanged, so with 3 nodes and a
4-by-4 matrix it succeeds; the only construction failure is a duplicate node
identifier, rejected by the `index_map` collaborator (modelled from the spec)
before any instance is returned. -/
theorem init_no_validation (nodes dup_nodes : List Nat) (ch : Nat)
    (chs : List Nat) (m : Mat) (hnd : nodes.Nodup) (hdup : ¬dup_nodes.Nodup) :
    (∃ g, Graph.init nodes (ch :: chs) [m] = .ok g ∧ g.nodes = nodes ∧
      g.adjs = [m]) ∧
    Graph.init dup_nodes (ch :: chs) [m] = .error .duplicateIdentifier := by
  constructor
  · refine ⟨_, Graph.init_eq_ok (ch :: chs) [m] hnd, rfl, ?_⟩
    simp [Graph.adjs, dictOfPairs, dictInsert]
  · unfold Graph.init index_map
    rw [if_neg hdup]

/-- Witness for C2: 3 distinct nodes with two declared channels but one 4-by-4
matrix construct fine, while duplicate identifiers fail. -/
theorem init_no_validation_witness :
    ([0, 1, 2] : List Nat).Nodup ∧ ¬([0, 0] : List Nat).Nodup ∧
    ((∃ g, Graph.init [0, 1, 2] [7, 8] [mat4] = .ok g ∧ g.nodes = [0, 1, 2] ∧
       g.adjs = [mat4]) ∧
     Graph.init [0, 0] [7, 8] [mat4] = .error .duplicateIdentifier) :=
  ⟨by decide, by decide,
   init_no_validation [0, 1, 2] [0, 0] 7 [8] mat4 (by decide) (by decide)⟩

/-- A 1-by-1 all-true candidate matrix, the wrong shape for 2 nodes and 3
candidates. -/
def mb11 : Matb := { rows := 1, cols := 1, entry := fun _ _ => true }

/-- Counterexample for C3 as stated: supplying an `is_cand` matrix whose shape
disagrees with `(len(nodes), len(candidates))` does not fail; the mismatched
matrix is stored unchanged. -/
theorem is_cand_shape_counterexample :
    GraphC.init [1, 2, 3] [10, 11] [] [] (some mb11) =
      .ok { graph := { ch_to_adj := [], nodes := [10, 11] },
            cands := [1, 2, 3], is_cand := mb11 } ∧
    (mb11.rows, mb11.cols) ≠ (([10, 11] : List Nat).length, ([1, 2, 3] : List Nat).length) :=
  ⟨rfl, by decide⟩

/-- C3 (amended): a supplied `is_cand` matrix is stored as given with no shape
validation; when no matrix is supplied, `is_cand` is initialized all-true with
shape `(len(nodes), len(candidates))`. -/
theorem is_cand_construction (candidates nodes channels : List Nat)
    (adjs : List Mat) (mb : Matb) (hn : nodes.Nodup) (hc : candidates.Nodup) :
    (∃ t, GraphC.init candidates nodes channels adjs none = .ok t ∧
      t.is_cand.rows = nodes.length ∧ t.is_cand.cols = candidates.length ∧
      ∀ i j, t.is_cand.entry i j = true) ∧
    (∃ t, GraphC.init candidates nodes channels adjs (some mb) = .ok t ∧
      t.is_cand = mb) :=
  ⟨⟨_, GraphC.init_builds channels adjs none hn hc, rfl, rfl, fun _ _ => rfl⟩,
   ⟨_, GraphC.init_builds channels adjs (some mb) hn hc, rfl⟩⟩

/-- Witness for C3 with 2 nodes and 3 candidates: the default matrix is
all-true of shape (2, 3), and a supplied 1-by-1 matrix is stored as is. -/
theorem is_cand_construction_witness :
    ([10, 11] : List Nat).Nodup ∧ ([1, 2, 3] : List Nat).Nodup ∧
    ((∃ t, GraphC.init [1, 2, 3] [10, 11] [] [] none = .ok t ∧
       t.is_cand.rows = ([10, 11] : List Nat).length ∧
       t.is_cand.cols = ([1, 2, 3] : List Nat).length ∧
       ∀ i j, t.is_cand.entry i j = true) ∧
     (∃ t, GraphC.init [1, 2, 3] [10, 11] [] [] (some mb11) = .ok t ∧
       t.is_cand = mb11)) :=
  ⟨by decide, by decide,
   is_cand_construction [1, 2, 3] [10, 11] [] [] mb11 (by decide) (by decide)⟩

/-- C4 (amended): `nbr_idx_pairs` lists the true entries of the
lower-triangular half of `is_nbr` including the diagonal, so it never contains
both `(i, j)` and `(j, i)` for distinct `i` and `j`, and its number of rows
equals the number of true entries with `j ≤ i` (a true diagonal entry, arising
from a self-loop, is included, which is one more than the strictly-lower
count the claim states). -/
theorem nbr_idx_pairs_lower_tri (g : Graph) (b : Matb) (h : g.is_nbr = .ok b) :
    g.nbr_idx_pairs = .ok (trilPairs b) ∧
    (∀ i j, i ≠ j → (i, j) ∈ trilPairs b → (j, i) ∉ trilPairs b) ∧
    (trilPairs b).length = b.trilCount := by
  refine ⟨?_, ?_, trilPairs_length b⟩
  · unfold Graph.nbr_idx_pairs
    rw [h]
    rfl
  · intro i j hij hmem hmem2
    have h1 := (mem_trilPairs.mp hmem).2.2.1
    have h2 := (mem_trilPairs.mp hmem2).2.2.1
    omega

/-- Witness for C4 at the concrete two-node graph. -/
theorem nbr_idx_pairs_lower_tri_witness :
    gEdge.is_nbr = .ok bEdge ∧
    (gEdge.nbr_idx_pairs = .ok (trilPairs bEdge) ∧
     (∀ i j, i ≠ j → (i, j) ∈ trilPairs bEdge → (j, i) ∉ trilPairs bEdge) ∧
     (trilPairs bEdge).length = bEdge.trilCount) :=
  ⟨rfl, nbr_idx_pairs_lower_tri gEdge bEdge rfl⟩

/-- One-node matrix with a self-loop of weight 1. -/
def matLoop : Mat := { rows := 1, cols := 1, entry := fun _ _ => 1 }

/-- One-node, one-channel graph with a self-loop. -/
def gLoop : Graph := { ch_to_adj := [(0, matLoop)], nodes := [5] }

/-- The neighbor matrix the self-loop graph derives. -/
def bLoop : Matb := (matLoop.add matLoop.transp).gtZero

/-- Counterexample for C4 as stated: for the one-node self-loop graph,
`nbr_idx_pairs` is `[(0, 0)]`, a pair equal to its own reverse, and its
number of rows is 1 while the strictly-lower-triangular half of `is_nbr`
has 0 true entries. -/
theorem nbr_idx_pairs_diag_counterexample :
    gLoop.is_nbr = .ok bLoop ∧
    gLoop.nbr_idx_pairs = .ok [(0, 0)] ∧
    bLoop.strictTrilCount = 0 ∧
    ((0, 0) ∈ [((0 : Nat), (0 : Nat))] ∧
     ((0 : Nat), (0 : Nat)).swap ∈ [((0 : Nat), (0 : Nat))]) :=
  ⟨rfl, rfl, by decide, by decide, by decide⟩

/-- C7: for every CandidateOverlay whose candidate matrix has the invariant
shape and whose candidates are distinct, `get_cands(node)` for a known node
returns a sequence whose length is the entry of `get_cand_counts` at the
node's position, and every returned identifier is a candidate of the node
according to `is_cand`. -/
theorem get_cands_spec (t : GraphC) (node ni : Nat)
    (hrows : t.is_cand.rows = t.graph.nodes.length)
    (hcols : t.is_cand.cols = t.cands.length)
    (hcnd : t.cands.Nodup)
    (hidx : t.graph.node_idxs node = some ni) :
    ∃ cs, t.get_cands node = .ok cs ∧
      t.get_cand_counts[ni]? = some cs.length ∧
      ∀ c ∈ cs, ∃ j, t.cand_idxs c = some j ∧ t.is_cand.entry ni j = true := by
  have hni : ni < t.graph.nodes.length := idxOf_lt_length hidx
  have hni2 : ni < t.is_cand.rows := by omega
  refine ⟨maskSel (fun j => t.is_cand.entry ni j) 0 t.cands, ?_, ?_, ?_⟩
  · unfold GraphC.get_cands
    rw [hidx]
    exact if_pos ⟨hni2, hcols⟩
  · unfold GraphC.get_cand_counts
    rw [List.getElem?_map, List.getElem?_range hni2]
    simp only [Option.map_some']
    congr 1
    rw [maskSel_length]
    unfold Matb.rowCount
    rw [hcols]
    apply List.countP_congr
    intro k hk
    simp
  · intro c hc
    obtain ⟨k, hk, hpk, hg⟩ := maskSel_mem _ _ _ _ hc
    exact ⟨k, idxOf_of_getD hcnd hk hg, by simpa using hpk⟩

/-- Candidate matrix of the example overlay: node 0 matches candidates at
positions 0 and 1, node 1 matches only position 1. -/
def mbXY : Matb :=
  { rows := 2, cols := 3,
    entry := fun i j => decide ((i = 0 ∧ (j = 0 ∨ j = 1)) ∨ (i = 1 ∧ j = 1)) }

/-- Example overlay with template nodes `[100, 101]` and candidates `[1, 2, 3]`. -/
def tXY : GraphC :=
  { graph := { ch_to_adj := [], nodes := [100, 101] },
    cands := [1, 2, 3], is_cand := mbXY }

/-- Witness for C7 at the example overlay, node 100 at position 0. -/
theorem get_cands_spec_witness :
    tXY.is_cand.rows = tXY.graph.nodes.length ∧
    tXY.is_cand.cols = tXY.cands.length ∧
    tXY.cands.Nodup ∧
    tXY.graph.node_idxs 100 = some 0 ∧
    (∃ cs, tXY.get_cands 100 = .ok cs ∧
      tXY.get_cand_counts[0]? = some cs.length ∧
      ∀ c ∈ cs, ∃ j, tXY.cand_idxs c = some j ∧ tXY.is_cand.entry 0 j = true) :=
  ⟨rfl, rfl, by decide, rfl,
   get_cands_spec tXY 100 0 rfl rfl (by decide) rfl⟩

/-- C8: for every CandidateOverlay with distinct template nodes, the per-node
listing of `summarize` visits the nodes in an order that is a permutation of
`nodes` sorted by descending candidate count, with ties broken by descending
node position. -/
theorem summarize_order_spec (t : GraphC) (hnd : t.graph.nodes.Nodup) :
    t.summarize_order.Perm t.graph.nodes ∧
    t.summarize_order.Pairwise (fun a b =>
      t.is_cand.rowCount ((t.graph.node_idxs b).getD 0) <
        t.is_cand.rowCount ((t.graph.node_idxs a).getD 0) ∨
      (t.is_cand.rowCount ((t.graph.node_idxs a).getD 0) =
        t.is_cand.rowCount ((t.graph.node_idxs b).getD 0) ∧
       (t.graph.node_idxs b).getD 0 < (t.graph.node_idxs a).getD 0)) := by
  have hperm : t.summarize_order.Perm t.graph.nodes := sortLe_perm _ _
  refine ⟨hperm, ?_⟩
  have hsorted0 : (sortLe (fun a b => keyLe (t.summarize_key a) (t.summarize_key b))
      t.graph.nodes).Pairwise
      (fun a b => keyLe (t.summarize_key a) (t.summarize_key b) = true) :=
    sortLe_pairwise
      (fun a b c => keyLe_trans (t.summarize_key a) (t.summarize_key b) (t.summarize_key c))
      (fun a b => keyLe_total (t.summarize_key a) (t.summarize_key b))
      t.graph.nodes
  have hsorted : t.summarize_order.Pairwise
      (fun a b => keyLe (t.summarize_key a) (t.summarize_key b) = true) := hsorted0
  have hnd2 : t.summarize_order.Nodup := hperm.symm.nodup hnd
  have hne : t.summarize_order.Pairwise (fun a b => a ≠ b) := hnd2
  refine (hsorted.and hne).imp_of_mem ?_
  intro a b ha hb hab
  obtain ⟨hle, hneq⟩ := hab
  have ha2 : a ∈ t.graph.nodes := hperm.mem_iff.mp ha
  have hb2 : b ∈ t.graph.nodes := hperm.mem_iff.mp hb
  obtain ⟨ia, hia⟩ := idxOf_of_mem ha2
  obtain ⟨ib, hib⟩ := idxOf_of_mem hb2
  have hga : (t.graph.node_idxs a).getD 0 = ia := by
    rw [Graph.node_idxs, hia]
    rfl
  have hgb : (t.graph.node_idxs b).getD 0 = ib := by
    rw [Graph.node_idxs, hib]
    rfl
  have hiane : ia ≠ ib := by
    intro he
    apply hneq
    have g1 : t.graph.nodes.getD ia 0 = a := idxOf_getD hia
    have g2 : t.graph.nodes.getD ib 0 = b := idxOf_getD hib
    rw [he] at g1
    rw [g1] at g2
    exact g2
  rw [keyLe_iff] at hle
  simp only [GraphC.summarize_key, hga, hgb] at hle
  rw [hga, hgb]
  omega

/-- Witness for C8 at the example overlay: its node list `[100, 101]` is
duplicate-free and the listing order of `summarize` satisfies the descending
ordering. -/
theorem summarize_order_spec_witness :
    tXY.graph.nodes.Nodup ∧
    (tXY.summarize_order.Perm tXY.graph.nodes ∧
     tXY.summarize_order.Pairwise (fun a b =>
       tXY.is_cand.rowCount ((tXY.graph.node_idxs b).getD 0) <
         tXY.is_cand.rowCount ((tXY.graph.node_idxs a).getD 0) ∨
       (tXY.is_cand.rowCount ((tXY.graph.node_idxs a).getD 0) =
         tXY.is_cand.rowCount ((tXY.graph.node_idxs b).getD 0) ∧
        (tXY.graph.node_idxs b).getD 0 < (tXY.graph.node_idxs a).getD 0))) :=
  ⟨by decide, summarize_order_spec tXY (by decide)⟩

/-- C9: `copy` returns a graph with the same node identifiers and channel
set whose adjacency matrices live behind fresh references holding equal
values, so writing to any matrix of the copy leaves every matrix of the
original unchanged, and writing to any matrix of the original leaves every
matrix of the copy unchanged. -/
theorem copy_independent (g : HGraph) (h : Heap) (ctr : Nat) (hwf : g.WF ctr) :
    (g.copy h ctr).1.nodes = g.nodes ∧
    (g.copy h ctr).1.chs = g.chs ∧
    (g.copy h ctr).1.adjRefs = (List.range g.adjRefs.length).map (fun k => ctr + k) ∧
    (∀ k, k < g.adjRefs.length →
      (g.copy h ctr).2 (ctr + k) = h (g.adjRefs.getD k 0)) ∧
    (∀ s ∈ g.adjRefs, (g.copy h ctr).2 s = h s) ∧
    (∀ r ∈ (g.copy h ctr).1.adjRefs, ∀ m : Mat, ∀ s ∈ g.adjRefs,
      writeHeap (g.copy h ctr).2 r m s = (g.copy h ctr).2 s) ∧
    (∀ s ∈ g.adjRefs, ∀ m : Mat, ∀ r ∈ (g.copy h ctr).1.adjRefs,
      writeHeap (g.copy h ctr).2 s m r = (g.copy h ctr).2 r) := by
  have hnewmem : ∀ r, r ∈ (g.copy h ctr).1.adjRefs → ctr ≤ r := by
    intro r hr
    simp only [HGraph.copy, List.mem_map, List.mem_range] at hr
    obtain ⟨k, -, rfl⟩ := hr
    exact Nat.le_add_right _ _
  refine ⟨rfl, rfl, rfl, ?_, ?_, ?_, ?_⟩
  · intro k hk
    show (if ctr ≤ ctr + k ∧ ctr + k - ctr < g.adjRefs.length
          then h (g.adjRefs.getD (ctr + k - ctr) 0) else h (ctr + k)) =
      h (g.adjRefs.getD k 0)
    rw [if_pos ⟨Nat.le_add_right _ _, by omega⟩]
    have he : ctr + k - ctr = k := by omega
    rw [he]
  · intro s hs
    have h1 : s < ctr := hwf s hs
    show (if ctr ≤ s ∧ s - ctr < g.adjRefs.length
          then h (g.adjRefs.getD (s - ctr) 0) else h s) = h s
    rw [if_neg (by omega)]
  · intro r hr m s hs
    have h1 : s < ctr := hwf s hs
    have h2 : ctr ≤ r := hnewmem r hr
    unfold writeHeap
    rw [if_neg (by omega)]
  · intro s hs m r hr
    have h1 : s < ctr := hwf s hs
    have h2 : ctr ≤ r := hnewmem r hr
    unfold writeHeap
    rw [if_neg (by omega)]

/-- Example graph in the heap model: one channel whose matrix is reference 0. -/
def hgEx : HGraph := { nodes := [1], chs := [2], adjRefs := [0] }

/-- Example heap holding the self-loop matrix in every cell. -/
def heapEx : Heap := fun _ => matLoop

/-- Witness for C9 at the one-reference example graph with counter 1. -/
theorem copy_independent_witness :
    hgEx.WF 1 ∧
    ((hgEx.copy heapEx 1).1.nodes = hgEx.nodes ∧
     (hgEx.copy heapEx 1).1.chs = hgEx.chs ∧
     (hgEx.copy heapEx 1).1.adjRefs =
       (List.range hgEx.adjRefs.length).map (fun k => 1 + k) ∧
     (∀ k, k < hgEx.adjRefs.length →
       (hgEx.copy heapEx 1).2 (1 + k) = heapEx (hgEx.adjRefs.getD k 0)) ∧
     (∀ s ∈ hgEx.adjRefs, (hgEx.copy heapEx 1).2 s = heapEx s) ∧
     (∀ r ∈ (hgEx.copy heapEx 1).1.adjRefs, ∀ m : Mat, ∀ s ∈ hgEx.adjRefs,
       writeHeap (hgEx.copy heapEx 1).2 r m s = (hgEx.copy heapEx 1).2 s) ∧
     (∀ s ∈ hgEx.adjRefs, ∀ m : Mat, ∀ r ∈ (hgEx.copy heapEx 1).1.adjRefs,
       writeHeap (hgEx.copy heapEx 1).2 s m r = (hgEx.copy heapEx 1).2 r)) :=
  ⟨fun r hr => by simp [hgEx] at hr; omega,
   copy_independent hgEx heapEx 1 (fun r hr => by simp [hgEx] at hr; omega)⟩
